import Mathlib

/-!
Verification of the interval normalization and merge engine of `src/app.py`.

The engine is the pure core of the application: `normalize_chromosome`
(lines 27-31), the per-record normalization performed in
`fetch_gene_positions` (lines 71-87), `process_bed_file` (lines 126-175)
and the validation prologue of `generate_bed` (lines 693-712).  Python
integers are modelled as `Int`, pandas DataFrames as `List` of record
structures, and the two `sort_values` calls as stable sorts by their
effective keys (see `sortByBed`).
-/

/-- One row of the DataFrame handed to `process_bed_file`: columns
`chr`, `start`, `end`, `gene`, all present.  The same shape serves for the
records produced by the merge, since the output columns are the same four. -/
structure BedRec where
  chr : String
  start : Int
  «end» : Int
  gene : String
deriving DecidableEq

/-- Internal tokens of the natural-sort tokenizer: a maximal digit run
(carrying its numeric value and its length in characters, so that runs can be
built by structural recursion) or a maximal non-digit run. -/
inductive RawTok where
  | num (val ndigits : Nat)
  | str (s : List Char)
deriving DecidableEq

/-- One component of a natsort comparison key.  A digit run compares by
numeric value, a non-digit run as a plain character string.  natsort builds
tuples that alternate string/number starting with a (possibly empty) string
component, so two keys always meet same-typed components at the same
position; placing all numbers below all strings in the `Sum.Lex` order
reproduces the effect of the empty-string padding natsort inserts before a
leading digit run. -/
abbrev NatTok := Lex (Nat ⊕ List Char)

/-- A full natural-sort key: the token sequence, compared lexicographically,
a strict prefix sorting first. -/
abbrev NatKey := List NatTok

/-- Numeric value of a decimal digit character. -/
def digitVal (c : Char) : Nat := c.toNat - 48

/-- Tokenize a character list into maximal digit / non-digit runs, as
natsort's `re.split` on `(\d+)` does; a digit run is parsed as a number
(so leading zeros are ignored by comparisons). -/
def natTokenize : List Char → List RawTok
  | [] => []
  | c :: cs =>
    let ts := natTokenize cs
    if c.isDigit then
      match ts with
      | .num v k :: rest => .num (digitVal c * 10 ^ k + v) (k + 1) :: rest
      | _ => .num (digitVal c) 1 :: ts
    else
      match ts with
      | .str s :: rest => .str (c :: s) :: rest
      | _ => .str [c] :: ts

/-- Comparison key of a single token. -/
def rawTokKey : RawTok → NatTok
  | .num v _ => toLex (Sum.inl v)
  | .str s => toLex (Sum.inr s)

/-- The natural-sort key of a contig string: models the per-element key used
by `natsort.index_natsorted` in the final sort of `process_bed_file`. -/
def natKey (s : String) : NatKey := (natTokenize s.data).map rawTokKey

/-- Relation of the first `sort_values` call (line 169): ascending `start`. -/
def startLE {α : Type} (startOf : α → Int) (a b : α) : Prop := startOf a ≤ startOf b

instance {α : Type} (startOf : α → Int) : DecidableRel (startLE startOf) := fun _ _ => by
  unfold startLE; infer_instance

instance {α : Type} (startOf : α → Int) : IsTotal α (startLE startOf) :=
  ⟨fun _ _ => Int.le_total _ _⟩

instance {α : Type} (startOf : α → Int) : IsTrans α (startLE startOf) :=
  ⟨fun _ _ _ => Int.le_trans⟩

/-- Effective key of the second `sort_values` call (lines 170-173).  The code
sorts by `np.argsort(index_natsorted(chr))`, i.e. by the rank of each row in a
stable natural sort of the `chr` column; ranks are distinct, and for rows with
equal contig keys they increase with the row's position after the first (by
`start`) sort.  Sorting by rank is therefore exactly sorting by the pair
(natural contig key, position after the start sort), compared lexicographically. -/
def tagLE {α : Type} (key : α → NatKey) (p q : Nat × α) : Prop :=
  toLex (key p.2, p.1) ≤ toLex (key q.2, q.1)

instance {α : Type} (key : α → NatKey) : DecidableRel (tagLE key) := fun p q => by
  unfold tagLE; infer_instance

instance {α : Type} (key : α → NatKey) : IsTotal (Nat × α) (tagLE key) :=
  ⟨fun _ _ => le_total _ _⟩

instance {α : Type} (key : α → NatKey) : IsTrans (Nat × α) (tagLE key) :=
  ⟨fun _ _ _ h1 h2 => le_trans h1 h2⟩

/-- Model of the final sort (lines 168-173): first sort by `start` ascending,
then reorder by the natural-sort rank of the contig.  Both pandas sorts are
modelled as stable sorts by their keys (the second key is total and distinct,
so stability only matters for the first pass). -/
def sortByBed {α : Type} (key : α → NatKey) (startOf : α → Int) (rows : List α) : List α :=
  ((List.insertionSort (startLE startOf) rows).enum.insertionSort (tagLE key)).map Prod.snd

/-- Python/pandas substring containment: `Series.str.contains(pat)` with a
plain (regex-free) pattern, case-sensitive. -/
def strContains (s pat : String) : Bool := decide (pat.data <:+: s.data)

/-- Python `str.startswith`. -/
def startswith (s pat : String) : Bool := pat.data.isPrefixOf s.data

/-- `normalize_chromosome` (lines 27-31): prepend `"chr"` unless the contig
already starts with it. -/
def normalize_chromosome (seq_region : String) : String :=
  if startswith seq_region "chr" then seq_region else "chr" ++ seq_region

/-- Per-record normalization performed by `fetch_gene_positions`
(lines 71-87): contig canonicalization and the start/end swap.  The `strand`
and `is_standard` fields are carried through unchanged by the source and are
ignored by `process_bed_file`, so they are omitted from the model. -/
def normalizeRecord (r : BedRec) : BedRec :=
  let chrom := normalize_chromosome r.chr
  if r.start > r.«end» then ⟨chrom, r.«end», r.start, r.gene⟩ else ⟨chrom, r.start, r.«end», r.gene⟩

/-- Contig filtering (lines 136-140): drop rows whose `chr` contains `"alt"`
when `remove_alt`, then rows whose `chr` contains `"fix"` when `remove_fix`. -/
def filterContigs (remove_alt remove_fix : Bool) (df : List BedRec) : List BedRec :=
  let df1 := if remove_alt then df.filter (fun r => !strContains r.chr "alt") else df
  if remove_fix then df1.filter (fun r => !strContains r.chr "fix") else df1

/-- Coordinate repair (lines 142-148): swap `start` and `end` when
`start > end`. -/
def repairRecord (r : BedRec) : BedRec :=
  if r.start > r.«end» then { r with start := r.«end», «end» := r.start } else r

/-- Python string comparison (code-point lexicographic), the order in which
pandas `groupby` emits its group keys. -/
def geneLE (a b : String) : Prop := a.data ≤ b.data

instance : DecidableRel geneLE := fun _ _ => by
  unfold geneLE; infer_instance

/-- The merged row of one `groupby("gene")` group (lines 150-155):
`chr` of the first member, minimum `start`, maximum `end`, the key as `gene`.
The `[]` branch is unreachable: `groupMerge` only calls this with keys that
occur in `df`. -/
def groupRow (df : List BedRec) (g : String) : BedRec :=
  match df.filter (fun r => r.gene = g) with
  | [] => ⟨"", 0, 0, g⟩
  | r :: rs =>
    ⟨r.chr, rs.foldl (fun m x => min m x.start) r.start,
      rs.foldl (fun m x => max m x.«end») r.«end», g⟩

/-- `df.groupby("gene").agg({...}).reset_index()` (lines 150-155): one row per
distinct `gene`, keys emitted in ascending order (pandas `groupby` sorts keys
by default).  `dedup` only fixes the key set; the subsequent sort fixes the
order. -/
def groupMerge (df : List BedRec) : List BedRec :=
  (List.insertionSort geneLE (df.map (·.gene)).dedup).map (groupRow df)

/-- Extension (lines 157-163), applied only when `extend_bp > 0`: subtract
`extend_bp` from `start` and clip at zero (`clip(lower=0)`), add it to `end`
with no upper clip. -/
def extendIntervals (extend_bp : Int) (merged : List BedRec) : List BedRec :=
  if extend_bp > 0 then
    merged.map fun r => { r with start := max (r.start - extend_bp) 0, «end» := r.«end» + extend_bp }
  else merged

/-- Contig key of a merged row. -/
def bedKey (r : BedRec) : NatKey := natKey r.chr

/-- `process_bed_file` (lines 126-175): filter, repair, merge, extend, sort. -/
def process_bed_file (df : List BedRec) (extend_bp : Int) (remove_alt remove_fix : Bool) :
    List BedRec :=
  sortByBed bedKey (fun r => r.start)
    (extendIntervals extend_bp (groupMerge ((filterContigs remove_alt remove_fix df).map repairRecord)))

/-- The whole engine as the spec describes it: raw positional records are
normalized per record (as in `fetch_gene_positions`) and the normalized batch
is handed to `process_bed_file`. -/
def enginePipeline (records : List BedRec) (extend_bp : Int) (remove_alt remove_fix : Bool) :
    List BedRec :=
  process_bed_file (records.map normalizeRecord) extend_bp remove_alt remove_fix

/-- The composite output order the spec claims for the engine: contig under
natural ordering first, then `start` ascending. -/
def bedOrder (a b : BedRec) : Prop :=
  bedKey a < bedKey b ∨ (bedKey a = bedKey b ∧ a.start ≤ b.start)

/-! ### Raw model of `generate_bed`

`generate_bed` (lines 693-712) builds `pd.DataFrame(genes)` from a JSON array
whose objects may lack keys; a missing key becomes NaN in the frame, and a
column exists iff at least one object carries the key.  The definitions below
track those NaN semantics. -/

/-- One element of the `genes_json` array: any of the four fields may be
absent (`none` models pandas NaN). -/
structure RawRec where
  chr : Option String
  start : Option Int
  «end» : Option Int
  gene : Option String
deriving DecidableEq

/-- A record after the coordinate-repair loop has forced `start`/`end` to
ints; `chr` and `gene` may still be NaN. -/
structure RawRepaired where
  chr : Option String
  start : Int
  «end» : Int
  gene : Option String
deriving DecidableEq

/-- An output row of the raw pipeline: `groupby("gene")` drops NaN keys, so
`gene` is a plain string, but `chr` may be NaN if every member of the group
lacked it. -/
structure RawRow where
  chr : Option String
  start : Int
  «end» : Int
  gene : String
deriving DecidableEq

/-- The DataFrame columns `generate_bed` checks (lines 705-708), in the order
of `required_cols`. -/
inductive Col where
  | chr | start | «end» | gene
deriving DecidableEq

def colName : Col → String
  | .chr => "chr"
  | .start => "start"
  | .«end» => "end"
  | .gene => "gene"

/-- Whether a record carries the field: `pd.DataFrame(genes)` has the column
iff some record does. -/
def hasField (r : RawRec) : Col → Bool
  | .chr => r.chr.isSome
  | .start => r.start.isSome
  | .«end» => r.«end».isSome
  | .gene => r.gene.isSome

def required_cols : List Col := [.chr, .start, .«end», .gene]

/-- `str.contains(pat, na=False)`: a NaN contig does not match. -/
def strContainsOpt (s : Option String) (pat : String) : Bool :=
  match s with
  | some s => strContains s pat
  | none => false

/-- natsort key of a possibly-NaN contig.  natsort orders NaN before any
string; the empty key is minimal in the lexicographic order, which encodes
that (it ties with the empty string; no claim exercises a NaN contig). -/
def rawKey (r : RawRow) : NatKey :=
  match r.chr with
  | some s => natKey s
  | none => []

/-- Raw-pipeline mirror of `process_bed_file`, tracking pandas NaN semantics
for frames built from JSON objects with missing keys:
the filter treats NaN contigs as non-matching (`na=False`);
the coordinate-repair loop evaluates `int(...)` on every `start`/`end`, so a
NaN in either column raises (modelled as `Except.error`);
`groupby("gene")` silently drops rows whose key is NaN (pandas default
`dropna=True`), and the `first` aggregation takes the first non-NaN contig of
the group. -/
def processBedFileRaw (df : List RawRec) (extend_bp : Int) (remove_alt remove_fix : Bool) :
    Except String (List RawRow) :=
  let df1 := if remove_alt then df.filter (fun r => !strContainsOpt r.chr "alt") else df
  let df2 := if remove_fix then df1.filter (fun r => !strContainsOpt r.chr "fix") else df1
  if df2.all (fun r => r.start.isSome && r.«end».isSome) then
    let repaired : List RawRepaired := df2.map fun r =>
      let s := r.start.getD 0
      let e := r.«end».getD 0
      if s > e then ⟨r.chr, e, s, r.gene⟩ else ⟨r.chr, s, e, r.gene⟩
    let keys := List.insertionSort geneLE (repaired.filterMap (fun r => r.gene)).dedup
    let merged : List RawRow := keys.map fun g =>
      match repaired.filter (fun r => r.gene = some g) with
      | [] => ⟨none, 0, 0, g⟩
      | r :: rs =>
        ⟨((r :: rs).filterMap (fun x => x.chr)).head?,
          rs.foldl (fun m x => min m x.start) r.start,
          rs.foldl (fun m x => max m x.«end») r.«end», g⟩
    let extended := if extend_bp > 0 then
        merged.map fun r =>
          { r with start := max (r.start - extend_bp) 0, «end» := r.«end» + extend_bp }
      else merged
    Except.ok (sortByBed rawKey (fun r => r.start) extended)
  else
    Except.error "cannot convert float NaN to integer"

/-- The `generate_bed` endpoint body after JSON decoding (lines 698-712): the
empty-batch check, the per-column required-field check, then
`process_bed_file(df, extend_bp, remove_alt=False, remove_fix=False)`. -/
def generate_bed (genes : List RawRec) (extend_bp : Int) : Except String (List RawRow) :=
  if genes.isEmpty then Except.error "No genes provided"
  else
    match required_cols.find? (fun c => genes.all (fun r => !hasField r c)) with
    | some c => Except.error ("Missing column: " ++ colName c)
    | none => processBedFileRaw genes extend_bp false false
/-! ### Helper lemmas -/

theorem isPrefixOf_self_append (l t : List Char) : l.isPrefixOf (l ++ t) = true := by
  induction l with
  | nil => simp
  | cons c cs ih => simp [List.cons_append, List.isPrefixOf, ih]

/-- Claim C9: contig normalization leaves an already-prefixed contig unchanged,
prepends `"chr"` otherwise, and is idempotent. -/
theorem normalize_chromosome_spec (s : String) :
    (startswith s "chr" = true → normalize_chromosome s = s) ∧
    (startswith s "chr" = false → normalize_chromosome s = "chr" ++ s) ∧
    normalize_chromosome (normalize_chromosome s) = normalize_chromosome s := by
  refine ⟨fun h => by simp [normalize_chromosome, h], fun h => by simp [normalize_chromosome, h], ?_⟩
  cases h : startswith s "chr" with
  | true => simp [normalize_chromosome, h]
  | false =>
    have h2 : startswith ("chr" ++ s) "chr" = true := by
      show ("chr".data.isPrefixOf ("chr" ++ s).data) = true
      rw [String.data_append]
      exact isPrefixOf_self_append _ _
    simp [normalize_chromosome, h, h2]

theorem normalize_chromosome_spec_w :
    normalize_chromosome "17" = "chr" ++ "17" :=
  (normalize_chromosome_spec "17").2.1 (by decide)

/-- Claim C7: after the coordinate-repair step every record satisfies
`start ≤ end`, and repairing an already-repaired record changes nothing. -/
theorem repair_invariant (df : List BedRec) :
    (∀ r ∈ df.map repairRecord, r.start ≤ r.«end») ∧
    (∀ r : BedRec, repairRecord (repairRecord r) = repairRecord r) := by
  constructor
  · intro r hr
    obtain ⟨x, _, rfl⟩ := List.mem_map.mp hr
    unfold repairRecord
    by_cases h : x.start > x.«end»
    · rw [if_pos h]
      show x.«end» ≤ x.start
      omega
    · rw [if_neg h]
      show x.start ≤ x.«end»
      omega
  · intro r
    by_cases h : r.start > r.«end»
    · have h1 : repairRecord r = { r with start := r.«end», «end» := r.start } := by
        unfold repairRecord
        rw [if_pos h]
      rw [h1]
      unfold repairRecord
      rw [if_neg (show ¬ ({ r with start := r.«end», «end» := r.start } : BedRec).start >
        ({ r with start := r.«end», «end» := r.start } : BedRec).«end» by show ¬ r.«end» > r.start; omega)]
    · have h1 : repairRecord r = r := by
        unfold repairRecord
        rw [if_neg h]
      rw [h1, h1]

theorem repair_invariant_w :
    (repairRecord ⟨"chrX", (9 : Int), 2, "G"⟩).start ≤ (repairRecord ⟨"chrX", (9 : Int), 2, "G"⟩).«end» :=
  (repair_invariant [⟨"chrX", (9 : Int), 2, "G"⟩]).1 (repairRecord ⟨"chrX", (9 : Int), 2, "G"⟩)
    (by decide)

/-- Claim C10: the extension step only touches `start` and `end`: the sequence
(hence multiset) of `(contig, label)` pairs and the row count are unchanged,
for every `extend_bp`. -/
theorem extend_frame (merged : List BedRec) (e : Int) :
    (extendIntervals e merged).map (fun r => (r.chr, r.gene)) =
      merged.map (fun r => (r.chr, r.gene)) ∧
    (extendIntervals e merged).length = merged.length := by
  unfold extendIntervals
  split <;> simp [List.map_map]

theorem extend_frame_w :
    (extendIntervals 7 [(⟨"chr1", 1, 2, "A"⟩ : BedRec)]).map (fun r => (r.chr, r.gene)) =
      [(⟨"chr1", 1, 2, "A"⟩ : BedRec)].map (fun r => (r.chr, r.gene)) :=
  (extend_frame [⟨"chr1", 1, 2, "A"⟩] 7).1

/-- Claim C6: with `extend_bp > 0` every merged interval becomes
`(max 0 (start - extend_bp), end + extend_bp)` — per-interval zero clamp, no
upper clamp — and with `extend_bp = 0` nothing changes; includes the spec's
two clamp examples. -/
theorem extend_intervals_spec (merged : List BedRec) (e : Int) :
    (0 < e → extendIntervals e merged =
      merged.map fun r => ⟨r.chr, max 0 (r.start - e), r.«end» + e, r.gene⟩) ∧
    (e = 0 → extendIntervals e merged = merged) ∧
    extendIntervals 10 [⟨"chr1", 5, 50, "A"⟩] = [⟨"chr1", 0, 60, "A"⟩] ∧
    extendIntervals 10 [⟨"chr1", 100, 200, "A"⟩] = [⟨"chr1", 90, 210, "A"⟩] := by
  refine ⟨fun h => ?_, fun h => ?_, by decide, by decide⟩
  · unfold extendIntervals
    rw [if_pos h]
    simp [max_comm]
  · subst h
    simp [extendIntervals]

theorem extend_intervals_spec_w :
    extendIntervals 10 [(⟨"chr2", 5, 50, "B"⟩ : BedRec)] =
      [(⟨"chr2", 5, 50, "B"⟩ : BedRec)].map
        (fun r => ⟨r.chr, max 0 (r.start - 10), r.«end» + 10, r.gene⟩) :=
  (extend_intervals_spec [⟨"chr2", 5, 50, "B"⟩] 10).1 (by decide)

/-- Claim C8: the contig filter keeps exactly the records not containing
`"alt"` (when `remove_alt`) and not containing `"fix"` (when `remove_fix`);
a false flag drops nothing; includes the spec's `chr19_GL000209v2_alt`
example both ways. -/
theorem filter_contigs_spec (ra rf : Bool) (df : List BedRec) (r : BedRec) :
    (r ∈ filterContigs ra rf df ↔
      r ∈ df ∧ (ra = true → strContains r.chr "alt" = false) ∧
        (rf = true → strContains r.chr "fix" = false)) ∧
    filterContigs false false df = df ∧
    filterContigs true false [⟨"chr19_GL000209v2_alt", 1, 2, "G"⟩] = [] ∧
    filterContigs false false [⟨"chr19_GL000209v2_alt", 1, 2, "G"⟩] =
      [⟨"chr19_GL000209v2_alt", 1, 2, "G"⟩] := by
  refine ⟨?_, by simp [filterContigs], by decide, by decide⟩
  unfold filterContigs
  cases ra <;> cases rf <;> simp [List.mem_filter] <;> tauto

theorem filter_contigs_spec_w :
    filterContigs false false [(⟨"chr19_GL000209v2_alt", 1, 2, "G"⟩ : BedRec)] =
      [(⟨"chr19_GL000209v2_alt", 1, 2, "G"⟩ : BedRec)] :=
  (filter_contigs_spec true true [⟨"chr19_GL000209v2_alt", 1, 2, "G"⟩]
    ⟨"chr19_GL000209v2_alt", 1, 2, "G"⟩).2.2.2
/-- Claim C3 (spec's end-to-end scenario): the two raw records for label `"A"`
on `"17"` (reversed coordinates) and `"chr17"` normalize and merge into the
single output row `("chr17", 30, 100, "A")`. -/
theorem engine_end_to_end :
    enginePipeline [⟨"17", 100, 50, "A"⟩, ⟨"chr17", 30, 80, "A"⟩] 0 true true =
      [⟨"chr17", 30, 100, "A"⟩] := by decide

/-- Claim C1, as the code actually behaves: `process_bed_file` signals nothing
when contig filtering empties a non-empty batch — it returns the empty result;
the only empty-batch signal in the program is `generate_bed`'s
"No genes provided" rejection of a batch that is empty before processing. -/
theorem empty_after_filter_returns_empty (df : List BedRec) (e : Int) (ra rf : Bool)
    (_hne : df ≠ []) (hf : filterContigs ra rf df = []) :
    process_bed_file df e ra rf = [] ∧
    generate_bed [] e = Except.error "No genes provided" := by
  refine ⟨?_, rfl⟩
  unfold process_bed_file
  rw [hf]
  show sortByBed bedKey (fun r => r.start) (extendIntervals e (groupMerge [])) = []
  have hg : groupMerge [] = [] := rfl
  rw [hg]
  have hext : extendIntervals e [] = [] := by
    unfold extendIntervals
    split <;> rfl
  rw [hext]
  rfl

theorem empty_after_filter_returns_empty_w :
    process_bed_file [(⟨"chr1_alt", 5, 10, "A"⟩ : BedRec)] 0 true true = [] :=
  (empty_after_filter_returns_empty [⟨"chr1_alt", 5, 10, "A"⟩] 0 true true
    (by decide) (by decide)).1

/-- Counterexample to claim C1 as stated: a non-empty batch whose only record
sits on an `alt` contig is emptied by filtering, and the engine returns the
empty result successfully — no `EmptyInputError` (or any error) is raised;
no such error exists anywhere in the program. -/
theorem empty_after_filter_no_error :
    ([(⟨"chr1_alt", 5, 10, "A"⟩ : BedRec)] ≠ []) ∧
    filterContigs true true [(⟨"chr1_alt", 5, 10, "A"⟩ : BedRec)] = [] ∧
    process_bed_file [(⟨"chr1_alt", 5, 10, "A"⟩ : BedRec)] 0 true true = [] := by
  refine ⟨by decide, by decide, by decide⟩

/-- Claim C2, as the code actually behaves: the required-field check of
`generate_bed` is per-column over the whole batch.  It reports
`Missing column` exactly when some required field is absent from every
record (and then aborts with no output); the error names the first such
column in the order `chr`, `start`, `end`, `gene`. -/
theorem generate_bed_missing_column (genes : List RawRec) (e : Int) (c : Col)
    (hne : genes ≠ []) :
    ((∀ r ∈ genes, hasField r c = false) → c ∈ required_cols →
      (required_cols.find? (fun c0 => genes.all (fun r => !hasField r c0))).isSome = true) ∧
    (required_cols.find? (fun c0 => genes.all (fun r => !hasField r c0)) = some c →
      generate_bed genes e = Except.error ("Missing column: " ++ colName c)) := by
  constructor
  · intro hmiss hc
    rw [List.find?_isSome]
    refine ⟨c, hc, ?_⟩
    rw [List.all_eq_true]
    intro r hr
    simp [hmiss r hr]
  · intro hfind
    unfold generate_bed
    rw [if_neg (by simp [List.isEmpty_iff, hne]), hfind]

theorem generate_bed_missing_column_w :
    generate_bed [(⟨none, none, none, none⟩ : RawRec)] 0 =
      Except.error ("Missing column: " ++ colName Col.chr) :=
  (generate_bed_missing_column [⟨none, none, none, none⟩] 0 Col.chr (by decide)).2 (by rfl)

/-- Counterexample to claim C2 as stated: in a batch where one record lacks
the `gene` field but another supplies it, the column check passes, no
`InputShapeError` (or any error) is raised, and the call succeeds — the bad
record is silently dropped by `groupby`, exactly what the claim says must not
happen. -/
theorem generate_bed_partial_missing_ok :
    generate_bed [⟨some "chr1", some 5, some 10, some "A"⟩,
        ⟨some "chr2", some 1, some 2, none⟩] 0 =
      Except.ok [⟨some "chr1", 5, 10, "A"⟩] := by rfl
/-- Any stable two-pass sort in the shape of `sortByBed` is pairwise ordered by
the composite key: natural contig key strictly first, then `start` ascending
for equal contig keys. -/
theorem sortByBed_pairwise {α : Type} (key : α → NatKey) (startOf : α → Int) (rows : List α) :
    (sortByBed key startOf rows).Pairwise
      (fun a b => key a < key b ∨ (key a = key b ∧ startOf a ≤ startOf b)) := by
  unfold sortByBed
  rw [List.pairwise_map]
  have h1 : List.Sorted (startLE startOf) (List.insertionSort (startLE startOf) rows) :=
    List.sorted_insertionSort _ _
  have h2 : List.Sorted (tagLE key)
      ((List.insertionSort (startLE startOf) rows).enum.insertionSort (tagLE key)) :=
    List.sorted_insertionSort _ _
  refine List.Pairwise.imp_of_mem (fun {p q} hp hq hle => ?_) h2
  have hp' : (List.insertionSort (startLE startOf) rows)[p.1]? = some p.2 :=
    List.mem_enum_iff_getElem?.mp ((List.mem_insertionSort _).mp hp)
  have hq' : (List.insertionSort (startLE startOf) rows)[q.1]? = some q.2 :=
    List.mem_enum_iff_getElem?.mp ((List.mem_insertionSort _).mp hq)
  have hlex := (Prod.Lex.le_iff (key p.2, p.1) (key q.2, q.1)).mp hle
  rcases hlex with hlt | ⟨heq, hij⟩
  · exact Or.inl hlt
  · refine Or.inr ⟨heq, ?_⟩
    obtain ⟨hplen, hpe⟩ := List.getElem?_eq_some_iff.mp hp'
    obtain ⟨hqlen, hqe⟩ := List.getElem?_eq_some_iff.mp hq'
    rcases Nat.lt_or_ge p.1 q.1 with hlt | hge
    · have h3 := h1.rel_get_of_lt (a := ⟨p.1, hplen⟩) (b := ⟨q.1, hqlen⟩)
        (Fin.mk_lt_mk.mpr hlt)
      rw [List.get_eq_getElem, List.get_eq_getElem, hpe, hqe] at h3
      exact h3
    · have hEq : p.1 = q.1 := Nat.le_antisymm hij hge
      rw [hEq] at hp'
      have h3 : some p.2 = some q.2 := hp'.symm.trans hq'
      rw [Option.some.inj h3]

/-- Claim C4: every output of `process_bed_file` is totally ordered by the
composite key (contig under natural ordering, then `start` ascending); in
particular contigs `chr10, chr2, chr1, chrX` (attached to distinct genes)
come out as `chr1, chr2, chr10, chrX`, numeric runs compared by value. -/
theorem process_bed_file_sorted (df : List BedRec) (e : Int) (ra rf : Bool) :
    (process_bed_file df e ra rf).Pairwise bedOrder ∧
    (process_bed_file
        [⟨"chr10", 5, 6, "g1"⟩, ⟨"chr2", 7, 8, "g2"⟩, ⟨"chr1", 1, 2, "g3"⟩, ⟨"chrX", 3, 4, "g4"⟩]
        0 false false).map (fun r => r.chr) = ["chr1", "chr2", "chr10", "chrX"] := by
  refine ⟨?_, by decide⟩
  exact sortByBed_pairwise bedKey (fun r => r.start) _
theorem groupRow_gene (df : List BedRec) (g : String) : (groupRow df g).gene = g := by
  unfold groupRow
  split <;> rfl

theorem filter_groupRows_of_not_mem (df : List BedRec) (keys : List String) (g : String)
    (hg : g ∉ keys) :
    (keys.map (groupRow df)).filter (fun r => r.gene = g) = [] := by
  induction keys with
  | nil => rfl
  | cons k ks ih =>
    have hkg : k ≠ g := fun h => hg (h ▸ List.mem_cons_self k ks)
    simp only [List.map_cons, List.filter_cons, groupRow_gene, hkg, decide_False]
    exact ih (fun h => hg (List.mem_cons_of_mem _ h))

theorem filter_groupRows (df : List BedRec) (keys : List String) (hnd : keys.Nodup)
    (g : String) (hg : g ∈ keys) :
    (keys.map (groupRow df)).filter (fun r => r.gene = g) = [groupRow df g] := by
  induction keys with
  | nil => cases hg
  | cons k ks ih =>
    obtain ⟨hk1, hk2⟩ := List.nodup_cons.mp hnd
    rcases List.mem_cons.mp hg with rfl | hg'
    · have h0 := filter_groupRows_of_not_mem df ks g hk1
      simp only [List.map_cons, List.filter_cons, groupRow_gene, decide_True, h0]
      simp
    · have hkg : k ≠ g := fun h => hk1 (h ▸ hg')
      simp only [List.map_cons, List.filter_cons, groupRow_gene, hkg, decide_False]
      exact ih hk2 hg'

theorem foldl_min_le {α : Type} (f : α → Int) (rs : List α) :
    ∀ a : Int, rs.foldl (fun m x => min m (f x)) a ≤ a ∧
      ∀ x ∈ rs, rs.foldl (fun m x => min m (f x)) a ≤ f x := by
  induction rs with
  | nil => exact fun a => ⟨le_refl _, fun x hx => absurd hx (List.not_mem_nil x)⟩
  | cons r rs ih =>
    intro a
    refine ⟨le_trans (ih (min a (f r))).1 (min_le_left _ _), fun x hx => ?_⟩
    rcases List.mem_cons.mp hx with rfl | hx'
    · exact le_trans (ih (min a (f x))).1 (min_le_right _ _)
    · exact (ih (min a (f r))).2 x hx'

theorem foldl_min_eq {α : Type} (f : α → Int) (rs : List α) :
    ∀ a : Int, rs.foldl (fun m x => min m (f x)) a = a ∨
      ∃ x ∈ rs, rs.foldl (fun m x => min m (f x)) a = f x := by
  induction rs with
  | nil => exact fun _ => Or.inl rfl
  | cons r rs ih =>
    intro a
    rcases ih (min a (f r)) with h | ⟨x, hx, hEq⟩
    · rcases le_total a (f r) with hle | hle
      · exact Or.inl (h.trans (min_eq_left hle))
      · exact Or.inr ⟨r, List.mem_cons_self r rs, h.trans (min_eq_right hle)⟩
    · exact Or.inr ⟨x, List.mem_cons_of_mem _ hx, hEq⟩

theorem foldl_max_ge {α : Type} (f : α → Int) (rs : List α) :
    ∀ a : Int, a ≤ rs.foldl (fun m x => max m (f x)) a ∧
      ∀ x ∈ rs, f x ≤ rs.foldl (fun m x => max m (f x)) a := by
  induction rs with
  | nil => exact fun a => ⟨le_refl _, fun x hx => absurd hx (List.not_mem_nil x)⟩
  | cons r rs ih =>
    intro a
    refine ⟨le_trans (le_max_left _ _) (ih (max a (f r))).1, fun x hx => ?_⟩
    rcases List.mem_cons.mp hx with rfl | hx'
    · exact le_trans (le_max_right _ _) (ih (max a (f x))).1
    · exact (ih (max a (f r))).2 x hx'

theorem foldl_max_eq {α : Type} (f : α → Int) (rs : List α) :
    ∀ a : Int, rs.foldl (fun m x => max m (f x)) a = a ∨
      ∃ x ∈ rs, rs.foldl (fun m x => max m (f x)) a = f x := by
  induction rs with
  | nil => exact fun _ => Or.inl rfl
  | cons r rs ih =>
    intro a
    rcases ih (max a (f r)) with h | ⟨x, hx, hEq⟩
    · rcases le_total (f r) a with hle | hle
      · exact Or.inl (h.trans (max_eq_left hle))
      · exact Or.inr ⟨r, List.mem_cons_self r rs, h.trans (max_eq_right hle)⟩
    · exact Or.inr ⟨x, List.mem_cons_of_mem _ hx, hEq⟩

/-- Claim C5: each label group of the (filtered, repaired) input yields
exactly one output row, with the group's minimum `start`, maximum `end`, the
group key as label, and the contig of the group's first member; the spec's
`(10,50) + (5,40) → (5,50)` example is included. -/
theorem group_merge_spec (df : List BedRec) (g : String)
    (hg : g ∈ df.map (fun r => r.gene)) :
    ((groupMerge df).filter (fun r => r.gene = g) = [groupRow df g] ∧
      (groupRow df g).gene = g ∧
      (∀ r ∈ df, r.gene = g →
        (groupRow df g).start ≤ r.start ∧ r.«end» ≤ (groupRow df g).«end») ∧
      (∃ r ∈ df, r.gene = g ∧ (groupRow df g).start = r.start) ∧
      (∃ r ∈ df, r.gene = g ∧ (groupRow df g).«end» = r.«end») ∧
      (df.filter (fun r => r.gene = g)).head?.map (fun r => r.chr) =
        some (groupRow df g).chr) ∧
    groupMerge [⟨"chr1", 10, 50, "A"⟩, ⟨"chr1", 5, 40, "A"⟩] = [⟨"chr1", 5, 50, "A"⟩] := by
  refine ⟨⟨?_, groupRow_gene df g, ?_, ?_, ?_, ?_⟩, by decide⟩
  case _ =>
    unfold groupMerge
    refine filter_groupRows df _ ?_ g ?_
    · exact (List.perm_insertionSort geneLE _).nodup_iff.mpr (List.nodup_dedup _)
    · exact (List.mem_insertionSort _).mpr (List.mem_dedup.mpr hg)
  all_goals {
    obtain ⟨r0, hr0, hr0g⟩ := List.mem_map.mp hg
    have hr0f : r0 ∈ df.filter (fun r => r.gene = g) :=
      List.mem_filter.mpr ⟨hr0, by simp [hr0g]⟩
    cases hgrp : df.filter (fun r => r.gene = g) with
    | nil => rw [hgrp] at hr0f; cases hr0f
    | cons r rs =>
      have hrow : groupRow df g =
          ⟨r.chr, rs.foldl (fun m x => min m x.start) r.start,
            rs.foldl (fun m x => max m x.«end») r.«end», g⟩ := by
        unfold groupRow
        rw [hgrp]
      have hmem : ∀ x : BedRec, x ∈ df → x.gene = g → x = r ∨ x ∈ rs := by
        intro x hx hxg
        have : x ∈ df.filter (fun r => r.gene = g) :=
          List.mem_filter.mpr ⟨hx, by simp [hxg]⟩
        rw [hgrp] at this
        exact List.mem_cons.mp this
      have hback : ∀ x : BedRec, x = r ∨ x ∈ rs → x ∈ df ∧ x.gene = g := by
        intro x hx
        have : x ∈ df.filter (fun r => r.gene = g) := by
          rw [hgrp]
          exact List.mem_cons.mpr hx
        have h2 := List.mem_filter.mp this
        exact ⟨h2.1, by simpa using h2.2⟩
      first
      | -- bounds
        (intro x hx hxg
         rw [hrow]
         constructor
         · rcases hmem x hx hxg with rfl | hx'
           · exact le_trans (foldl_min_le (fun b => b.start) rs x.start).1 (le_refl _)
           · exact (foldl_min_le (fun b => b.start) rs r.start).2 x hx'
         · rcases hmem x hx hxg with rfl | hx'
           · exact (foldl_max_ge (fun b => b.«end») rs x.«end»).1
           · exact (foldl_max_ge (fun b => b.«end») rs r.«end»).2 x hx')
      | -- min attained
        (rcases foldl_min_eq (fun b => b.start) rs r.start with h | ⟨x, hx, hEq⟩
         · obtain ⟨hrd, hrg⟩ := hback r (Or.inl rfl)
           exact ⟨r, hrd, hrg, by rw [hrow]; exact h⟩
         · obtain ⟨hxd, hxg⟩ := hback x (Or.inr hx)
           exact ⟨x, hxd, hxg, by rw [hrow]; exact hEq⟩)
      | -- max attained
        (rcases foldl_max_eq (fun b => b.«end») rs r.«end» with h | ⟨x, hx, hEq⟩
         · obtain ⟨hrd, hrg⟩ := hback r (Or.inl rfl)
           exact ⟨r, hrd, hrg, by rw [hrow]; exact h⟩
         · obtain ⟨hxd, hxg⟩ := hback x (Or.inr hx)
           exact ⟨x, hxd, hxg, by rw [hrow]; exact hEq⟩)
      | -- first contig
        (rw [hrow]
         rfl)
  }

theorem group_merge_spec_w :
    groupMerge [(⟨"chr1", 10, 50, "A"⟩ : BedRec), ⟨"chr1", 5, 40, "A"⟩] =
      [(⟨"chr1", 5, 50, "A"⟩ : BedRec)] :=
  (group_merge_spec [⟨"chr1", 10, 50, "A"⟩, ⟨"chr1", 5, 40, "A"⟩] "A" (by decide)).2
